import Mathlib

/-!
Verification of the text-annotation prototype (src/main.py).

The Python source is shallowly embedded below.  Documents and all other
Python strings are modelled as `List Char` (sequences of Unicode scalar
values, exactly Python's `str` for valid UTF-8 input).  Python `int` is
modelled as `Int`; Python's floor division `//` agrees with `Int`'s `/`
(`Int.ediv`) on every input, and `range`'s length formula only divides
non-negative numerators here.  Raised exceptions are modelled as `none`
/ error values.
-/

/-- Resolve one bound of a Python slice `s[a:b]` for a sequence of length
`n`: negative indices count from the end and everything is clamped to
`[0, n]`. -/
def pySliceIdx (n : Nat) (i : Int) : Nat :=
  if i < 0 then ((n : Int) + i).toNat else min i.toNat n

/-- Python slice `l[a:b]` (step 1). -/
def pySlice (l : List Char) (a b : Int) : List Char :=
  (l.take (pySliceIdx l.length b)).drop (pySliceIdx l.length a)

/-- One annotation record, as built by the "Add Annotation" handler in
`main` (src/main.py lines 135-140): a Python dict with keys
`start_pos`, `end_pos`, `label`, `text_fragment`. -/
structure Ann where
  start_pos : Int
  end_pos : Int
  label : List Char
  text_fragment : List Char
deriving DecidableEq

/-- One element of the list returned by `get_annotated_text`: either a
bare string (unannotated text) or a `(fragment, label, color)` tuple. -/
inductive Fragment where
  | plain (s : List Char)
  | highlight (s : List Char) (label : List Char) (color : List Char)
deriving DecidableEq

/-- The highlight color constant `"#8ef"` from src/main.py line 56. -/
def hlColor : List Char := ("#8ef").toList

/-- The text carried by a fragment. -/
def Fragment.fragText : Fragment → List Char
  | .plain s => s
  | .highlight s _ _ => s

/-- Comparison key of `sorted(annotations, key=lambda x: x['start_pos'])`. -/
def annLe (a b : Ann ) : Prop := a.start_pos ≤ b.start_pos

instance : DecidableRel annLe := fun a b => Int.decLe a.start_pos b.start_pos

instance : IsTotal Ann annLe := ⟨fun a b => Int.le_total a.start_pos b.start_pos⟩

instance : IsTrans Ann annLe := ⟨fun _ _ _ hab hbc => Int.le_trans hab hbc⟩

/-- The sweep loop of `get_annotated_text` (src/main.py lines 46-61):
`last_end` is the cursor; for each annotation a plain gap fragment is
emitted only when `start_pos > last_end`, the highlight tuple is emitted
unconditionally, and the cursor is set to `end_pos`; after the loop the
remaining tail `text[last_end:]` is emitted when `last_end < len(text)`. -/
def sweep (text : List Char) : Int → List Ann → List Fragment
  | last_end, [] =>
      if last_end < (text.length : Int) then
        [Fragment.plain (pySlice text last_end (text.length : Int))]
      else []
  | last_end, a :: rest =>
      (if a.start_pos > last_end then
        [Fragment.plain (pySlice text last_end a.start_pos)]
      else []) ++
        (Fragment.highlight (pySlice text a.start_pos a.end_pos) a.label hlColor
          :: sweep text a.end_pos rest)

/-- `get_annotated_text` (src/main.py lines 27-63).  Python's `sorted`
is a stable ascending sort by the key `start_pos`; `List.insertionSort`
with the non-strict key order is also stable and ascending and hence
computes the identical list on every input. -/
def get_annotated_text (text : List Char) (annotations : List Ann ) : List Fragment :=
  sweep text 0 (annotations.insertionSort annLe)

/-- Length of Python `range(start, stop, step)` (0 when empty); the
numerator is divided with floor division, exactly as in CPython. -/
def pyRangeLen (start stop step : Int) : Nat :=
  if 0 < step then ((stop - start + step - 1) / step).toNat
  else ((start - stop - step - 1) / (-step)).toNat

/-- Python `range(start, stop, step)` as a list; `none` models the
`ValueError` raised when `step = 0`. -/
def pyRange (start stop step : Int) : Option (List Int) :=
  if step = 0 then none
  else some ((List.range (pyRangeLen start stop step)).map
    (fun k : Nat => start + (k : Int) * step))

/-- `paginate_text` (src/main.py lines 65-77):
`[text[i:i+indices_per_page] for i in range(0, len(text), indices_per_page)]`.
`none` models the `ValueError` that `range` raises for a zero step. -/
def paginate_text (text : List Char) (indices_per_page : Int) : Option (List (List Char)) :=
  (pyRange 0 text.length indices_per_page).map
    (fun idxs => idxs.map (fun i => pySlice text i (i + indices_per_page)))

/-- The "Add Annotation" button handler from `main` (src/main.py lines
133-144).  First component: the annotation list afterwards; second
component: the `st.error` message, or `none` when the add succeeded.
The guard is Python's chained comparison
`0 <= start_pos < end_pos <= len(text)`. -/
def addAnn (text : List Char) (annotations : List Ann ) (start_pos end_pos : Int)
    (label : List Char) : List Ann × Option (List Char) :=
  if 0 ≤ start_pos ∧ start_pos < end_pos ∧ end_pos ≤ (text.length : Int) then
    (annotations ++
      [{ start_pos := start_pos, end_pos := end_pos, label := label,
         text_fragment := pySlice text start_pos end_pos }], none)
  else
    (annotations, some (("Invalid annotation positions.").toList))

/-- The quote character. -/
def qc : Char := Char.ofNat 34

/-- The backslash character. -/
def bs : Char := Char.ofNat 92

/-- The newline character. -/
def nl : Char := Char.ofNat 10

/-- The opening curly brace. -/
def lb : Char := Char.ofNat 123

/-- The closing curly brace. -/
def rb : Char := Char.ofNat 125

/-- Decimal digits of a natural number, most significant digit first;
this is exactly Python's `str`/`repr` of a non-negative `int`. -/
def natDigits (n : Nat) : List Char :=
  if n < 10 then [Char.ofNat (48 + n)]
  else natDigits (n / 10) ++ [Char.ofNat (48 + n % 10)]
decreasing_by exact Nat.div_lt_self (by omega) (by omega)

/-- Python's textual form of an `int`, as emitted by `json.dumps`. -/
def intRepr : Int → List Char
  | Int.ofNat n => natDigits n
  | Int.negSucc m => '-' :: natDigits (m + 1)

/-- Lowercase hexadecimal digit, as used by Python's `\uXXXX` escapes. -/
def hexDigitChar (k : Nat) : Char :=
  if k < 10 then Char.ofNat (48 + k) else Char.ofNat (87 + k)

/-- Four lowercase hex digits of `n % 0x10000`. -/
def hex4 (n : Nat) : List Char :=
  [hexDigitChar (n / 4096 % 16), hexDigitChar (n / 256 % 16),
   hexDigitChar (n / 16 % 16), hexDigitChar (n % 16)]

/-- `json.dumps` encoding of one character with the default
`ensure_ascii=True`: short escapes for quote, backslash and the named
control characters, `\uXXXX` for other control and all non-ASCII
characters (a surrogate pair for astral ones), and printable ASCII
(0x20-0x7e) kept literally. -/
def encodeChar (c : Char) : List Char :=
  if c = qc then [bs, qc]
  else if c = bs then [bs, bs]
  else if c.toNat = 8 then [bs, 'b']
  else if c.toNat = 12 then [bs, 'f']
  else if c.toNat = 10 then [bs, 'n']
  else if c.toNat = 13 then [bs, 'r']
  else if c.toNat = 9 then [bs, 't']
  else if c.toNat < 32 then bs :: 'u' :: hex4 c.toNat
  else if c.toNat < 127 then [c]
  else if c.toNat < 65536 then bs :: 'u' :: hex4 c.toNat
  else bs :: 'u' :: hex4 (55296 + (c.toNat - 65536) / 1024) ++
    bs :: 'u' :: hex4 (56320 + (c.toNat - 65536) % 1024)

/-- JSON-encoded string body (no surrounding quotes). -/
def encStr (s : List Char) : List Char := (s.map encodeChar).flatten

/-- JSON values, restricted to the shapes `json.dumps` receives in this
program: strings, ints, arrays and (insertion-ordered) objects. -/
inductive Json where
  | str (s : List Char)
  | int (n : Int)
  | arr (xs : List Json)
  | obj (kvs : List (List Char × Json))

/-- Indentation emitted by `json.dumps(..., indent=4)` at a nesting level. -/
def indentN (level : Nat) : List Char := List.replicate (4 * level) ' '

/-- `"key": ` as emitted inside an object (key separator `": "`). -/
def keyColon (k : List Char) : List Char :=
  qc :: encStr k ++ qc :: ':' :: ' ' :: []

mutual
/-- `json.dumps(value, indent=4)` at a given nesting level: strings are
escaped and quoted, ints printed in decimal, empty containers printed
inline, and non-empty containers printed one element per line with
4-space indentation, items separated by `",“` + newline (Python's
default separators with an indent are `(',', ': ')`). -/
def dumpVal (level : Nat) : Json → List Char
  | .str s => qc :: encStr s ++ [qc]
  | .int n => intRepr n
  | .arr [] => ['[', ']']
  | .arr (x :: xs) => '[' :: itemsChunk level x xs
  | .obj [] => [lb, rb]
  | .obj ((k, v) :: kvs) => lb :: membersChunk level k v kvs
termination_by j => sizeOf j
decreasing_by (all_goals simp_wf); all_goals omega

/-- The part of a non-empty dumped array after the opening bracket:
newline, indented first item, then either `,` and the next chunk or the
final newline plus closing bracket. -/
def itemsChunk (level : Nat) (x : Json) : List Json → List Char
  | [] => nl :: indentN (level + 1) ++ dumpVal (level + 1) x ++
      nl :: indentN level ++ [']']
  | y :: ys => nl :: indentN (level + 1) ++ dumpVal (level + 1) x ++
      ',' :: itemsChunk level y ys
termination_by l => 1 + sizeOf x + sizeOf l
decreasing_by (all_goals simp_wf); all_goals omega

/-- The part of a non-empty dumped object after the opening brace. -/
def membersChunk (level : Nat) (k : List Char) (v : Json) :
    List (List Char × Json) → List Char
  | [] => nl :: indentN (level + 1) ++ keyColon k ++ dumpVal (level + 1) v ++
      nl :: indentN level ++ [rb]
  | (k2, v2) :: ms => nl :: indentN (level + 1) ++ keyColon k ++ dumpVal (level + 1) v ++
      ',' :: membersChunk level k2 v2 ms
termination_by l => 1 + sizeOf v + sizeOf l
decreasing_by (all_goals simp_wf); all_goals omega
end

/-- Stable re-serialization of a parsed JSON value (the fixed key/array
order of the value itself, `indent=4` style). -/
def json_dumps (j : Json) : List Char := dumpVal 0 j

/-- The JSON object built for one annotation dict (key order is the
dict insertion order of src/main.py lines 135-140). -/
def annJson (a : Ann ) : Json :=
  Json.obj [(("start_pos").toList, Json.int a.start_pos),
            (("end_pos").toList, Json.int a.end_pos),
            (("label").toList, Json.str a.label),
            (("text_fragment").toList, Json.str a.text_fragment)]

/-- `annotated_data` of src/main.py lines 20-23: `"text"` before
`"annotations"`, annotations in list order. -/
def docJson (text : List Char) (annotations : List Ann ) : Json :=
  Json.obj [(("text").toList, Json.str text),
            (("annotations").toList, Json.arr (annotations.map annJson))]

/-- `save_annotations` (src/main.py lines 5-25):
`json.dumps({"text": text, "annotations": annotations}, indent=4)`. -/
def save_annotations (text : List Char) (annotations : List Ann ) : List Char :=
  dumpVal 0 (docJson text annotations)

/-- JSON whitespace. -/
def isWsChar (c : Char) : Bool :=
  (c == ' ') || (c == Char.ofNat 9) || (c == nl) || (c == Char.ofNat 13)

/-- Drop leading JSON whitespace. -/
def skipWs (s : List Char) : List Char := s.dropWhile isWsChar

/-- Numeric value of one hex digit (upper or lower case), as accepted by
a JSON `\uXXXX` escape. -/
def hexDigitVal (c : Char) : Option Nat :=
  if 48 ≤ c.toNat ∧ c.toNat ≤ 57 then some (c.toNat - 48)
  else if 97 ≤ c.toNat ∧ c.toNat ≤ 102 then some (c.toNat - 87)
  else if 65 ≤ c.toNat ∧ c.toNat ≤ 70 then some (c.toNat - 55)
  else none

/-- Value of four hex digits. -/
def hex4Val (a b c d : Char) : Option Nat := do
  let x ← hexDigitVal a
  let y ← hexDigitVal b
  let z ← hexDigitVal c
  let w ← hexDigitVal d
  pure (4096 * x + 256 * y + 16 * z + w)

/-- The character named by a JSON short escape `\c`. -/
def unescapeChar (c : Char) : Option Char :=
  if c = qc then some qc
  else if c = bs then some bs
  else if c = '/' then some '/'
  else if c = 'b' then some (Char.ofNat 8)
  else if c = 'f' then some (Char.ofNat 12)
  else if c = 'n' then some nl
  else if c = 'r' then some (Char.ofNat 13)
  else if c = 't' then some (Char.ofNat 9)
  else none

/-- Decode the hex payload following a `\u` escape: four hex digits,
with a high surrogate requiring an immediately following `\uXXXX` low
surrogate (the pair names one astral scalar).  Returns the decoded
character together with the number of input characters consumed (4, or
10 for a pair).  A lone surrogate escape is rejected: it denotes no
Unicode scalar value, hence no `Char`; the serializer never emits one. -/
def readU (r2 : List Char) : Option (Char × Nat) :=
  match r2 with
  | a :: b :: c3 :: d :: r3 =>
    match hex4Val a b c3 d with
    | none => none
    | some h =>
      if 55296 ≤ h ∧ h < 56320 then
        match r3 with
        | e2 :: u2 :: a2 :: b2 :: c4 :: d2 :: _ =>
          if e2 = bs ∧ u2 = 'u' then
            match hex4Val a2 b2 c4 d2 with
            | none => none
            | some l =>
              if 56320 ≤ l ∧ l < 57344 then
                some (Char.ofNat (65536 + (h - 55296) * 1024 + (l - 56320)), 10)
              else none
          else none
        | _ => none
      else if 56320 ≤ h ∧ h < 57344 then none
      else some (Char.ofNat h, 4)
  | _ => none

/-- Parse a JSON string body up to and including the closing quote,
returning the decoded characters and the remaining input.  `\uXXXX`
escapes are decoded via `readU`; raw control characters are rejected
(JSON `strict` mode). -/
def parseStringBody : List Char → Option (List Char × List Char)
  | [] => none
  | c :: r =>
    if c = qc then some ([], r)
    else if c = bs then
      match r with
      | [] => none
      | e :: r2 =>
        if e = 'u' then
          match readU r2 with
          | none => none
          | some (ch, k) => (parseStringBody (r2.drop k)).map (fun p => (ch :: p.1, p.2))
        else
          match unescapeChar e with
          | some ch => (parseStringBody r2).map (fun p => (ch :: p.1, p.2))
          | none => none
    else if c.toNat < 32 then none
    else (parseStringBody r).map (fun p => (c :: p.1, p.2))
termination_by s => s.length
decreasing_by
  all_goals simp only [List.length_cons, List.length_drop]
  all_goals omega

/-- Parse a non-empty run of decimal digits greedily, returning its
value and the remaining input. -/
def parseDigits (s : List Char) : Option (Nat × List Char) :=
  let ds := s.takeWhile Char.isDigit
  if ds = [] then none
  else some (ds.foldl (fun acc c => acc * 10 + (c.toNat - 48)) 0,
             s.dropWhile Char.isDigit)

/-- Does the list start with the given character? -/
def headEq (l : List Char) (c : Char) : Bool :=
  match l with
  | [] => false
  | x :: _ => x == c

mutual
/-- Recursive-descent JSON value parser (integers, strings, arrays,
objects — the grammar `json.dumps` emits in this program).  `fuel`
bounds the recursion depth; `json_loads` supplies more fuel than any
input can consume, so the bound is never hit on parses that matter. -/
def parseVal : Nat → List Char → Option (Json × List Char)
  | 0, _ => none
  | fuel + 1, s =>
    match skipWs s with
    | [] => none
    | c :: r =>
      if c = qc then (parseStringBody r).map (fun p => (Json.str p.1, p.2))
      else if c = '[' then
        if headEq (skipWs r) ']' then some (Json.arr [], (skipWs r).drop 1)
        else (parseItems fuel r).map (fun p => (Json.arr p.1, p.2))
      else if c = lb then
        if headEq (skipWs r) rb then some (Json.obj [], (skipWs r).drop 1)
        else (parseMembers fuel r).map (fun p => (Json.obj p.1, p.2))
      else if c = '-' then
        (parseDigits r).map (fun p => (Json.int (-(p.1 : Int)), p.2))
      else if c.isDigit then
        (parseDigits (c :: r)).map (fun p => (Json.int (p.1 : Int), p.2))
      else none

/-- Parse the items of a non-empty array, consuming the closing `]`. -/
def parseItems : Nat → List Char → Option (List Json × List Char)
  | 0, _ => none
  | fuel + 1, s =>
    match parseVal fuel s with
    | none => none
    | some (v, r) =>
      match skipWs r with
      | [] => none
      | c :: r2 =>
        if c = ',' then (parseItems fuel r2).map (fun p => (v :: p.1, p.2))
        else if c = ']' then some ([v], r2)
        else none

/-- Parse the members of a non-empty object, consuming the closing brace. -/
def parseMembers : Nat → List Char → Option (List (List Char × Json) × List Char)
  | 0, _ => none
  | fuel + 1, s =>
    match skipWs s with
    | [] => none
    | c :: r =>
      if c = qc then
        match parseStringBody r with
        | none => none
        | some (k, r2) =>
          match skipWs r2 with
          | [] => none
          | c2 :: r3 =>
            if c2 = ':' then
              match parseVal fuel r3 with
              | none => none
              | some (v, r4) =>
                match skipWs r4 with
                | [] => none
                | c3 :: r5 =>
                  if c3 = ',' then
                    (parseMembers fuel r5).map (fun p => ((k, v) :: p.1, p.2))
                  else if c3 = rb then some ([(k, v)], r5)
                  else none
            else none
      else none
end

/-- `json.loads` on the grammar above: parse one value and require only
whitespace to remain. -/
def json_loads (s : List Char) : Option Json :=
  match parseVal (s.length + 1) s with
  | some (j, r) => if skipWs r = [] then some j else none
  | none => none

/-! ### Helper lemmas about slices -/

/-- For non-negative bounds a Python slice is take-then-drop (the
clamping `min`s are absorbed by `take`/`drop` themselves). -/
theorem pySlice_eq (l : List Char) (a b : Int) (ha : 0 ≤ a) (hb : 0 ≤ b) :
    pySlice l a b = (l.take b.toNat).drop a.toNat := by
  unfold pySlice pySliceIdx
  rw [if_neg (by omega), if_neg (by omega)]
  have htake : l.take (min b.toNat l.length) = l.take b.toNat := by
    rw [List.take_eq_take]
    omega
  rw [htake]
  rcases le_total a.toNat l.length with h | h
  · rw [min_eq_left h]
  · rw [min_eq_right h]
    have h1 : (l.take b.toNat).length ≤ l.length := by
      rw [List.length_take]; omega
    rw [List.drop_eq_nil_of_le (by omega), List.drop_eq_nil_of_le (by omega)]

/-- Adjacent take-then-drop slices of the same list concatenate. -/
theorem slice_glue (l : List Char) (i j : Nat) (hij : i ≤ j) :
    (l.take j).drop i ++ l.drop j = l.drop i := by
  have h1 : (l.take j).drop i = (l.drop i).take (j - i) := List.drop_take j i l
  have h2 : l.drop j = (l.drop i).drop (j - i) := by
    rw [List.drop_drop]
    congr 1
    omega
  rw [h1, h2, List.take_append_drop]

/-- Slicing from 0 to the length is the identity. -/
theorem pySlice_full (l : List Char) : pySlice l 0 (l.length : Int) = l := by
  rw [pySlice_eq l 0 (l.length : Int) le_rfl (by omega)]
  simp

/-! ### C7: renderer on the empty annotation set -/

/-- C7: for every text, `get_annotated_text` applied to an empty
annotation set returns a single plain fragment holding the whole text,
and no fragments at all when the text is empty. -/
theorem renderer_empty_set (text : List Char) :
    get_annotated_text text [] = if text = [] then [] else [Fragment.plain text] := by
  have h := pySlice_full text
  unfold get_annotated_text
  cases text with
  | nil => simp [List.insertionSort, sweep]
  | cons c t =>
    simp only [List.insertionSort, sweep]
    rw [if_pos (by simp), if_neg (by simp)]
    rw [h]

/-! ### C1: pinned overlap behavior of the renderer -/

/-- C1: on text `"abcdefghij"` with overlapping annotations
`[0,5,"A"]` and `[3,8,"B"]` the renderer emits both highlights
unconditionally, inserts no plain gap between them (the second starts
before the cursor), and ends with the plain tail `"ij"`. -/
theorem overlap_regression_pin :
    get_annotated_text (("abcdefghij").toList)
      [⟨0, 5, ("A").toList, ("abcde").toList⟩, ⟨3, 8, ("B").toList, ("defgh").toList⟩] =
      [Fragment.highlight (("abcde").toList) (("A").toList) hlColor,
       Fragment.highlight (("defgh").toList) (("B").toList) hlColor,
       Fragment.plain (("ij").toList)] := by decide

/-! ### C9: unconditional cursor update re-emits text after a nested span -/

/-- C9: the cursor is set to each annotation's `end_pos` unconditionally,
so a span nested in an earlier longer span drags the cursor backwards and
the tail `text[3:]` is emitted again although it already appeared inside
the first highlight. -/
theorem nested_cursor_reemission :
    get_annotated_text (("abcdefghij").toList)
      [⟨0, 10, ("A").toList, ("abcdefghij").toList⟩, ⟨2, 3, ("B").toList, ("c").toList⟩] =
      [Fragment.highlight (("abcdefghij").toList) (("A").toList) hlColor,
       Fragment.highlight (("c").toList) (("B").toList) hlColor,
       Fragment.plain (("defghij").toList)] := by decide

/-! ### C3: validation of the add-annotation operation -/

/-- C3: the add handler validates `0 <= start < end <= len(text)`;
on violation it reports "Invalid annotation positions." and leaves the
annotation list unchanged, and on success it appends exactly the record
`{start_pos, end_pos, label, text_fragment: text[start:end]}` and
reports no error. -/
theorem addAnn_validates (text : List Char) (anns : List Ann ) (s e : Int)
    (label : List Char) :
    (¬ (0 ≤ s ∧ s < e ∧ e ≤ (text.length : Int)) →
      addAnn text anns s e label = (anns, some (("Invalid annotation positions.").toList))) ∧
    ((0 ≤ s ∧ s < e ∧ e ≤ (text.length : Int)) →
      addAnn text anns s e label =
        (anns ++ [{ start_pos := s, end_pos := e, label := label,
                    text_fragment := pySlice text s e }], none)) := by
  constructor
  · intro h
    unfold addAnn
    rw [if_neg h]
  · intro h
    unfold addAnn
    rw [if_pos h]

/-- Witness for C3 at concrete inputs: `start=5, end=3` fails and leaves
the set unchanged; `start=0, end=1` appends the derived record. -/
theorem addAnn_validates_witness :
    addAnn (("ab").toList) [] 5 3 (("L").toList) =
      ([], some (("Invalid annotation positions.").toList)) ∧
    addAnn (("ab").toList) [] 0 1 (("L").toList) =
      ([{ start_pos := 0, end_pos := 1, label := ("L").toList,
          text_fragment := pySlice (("ab").toList) 0 1 }], none) :=
  ⟨(addAnn_validates (("ab").toList) [] 5 3 (("L").toList)).1 (by decide),
   (addAnn_validates (("ab").toList) [] 0 1 (("L").toList)).2 (by decide)⟩

/-! ### C10 / C4: paginator behavior for non-positive page sizes -/

/-- Shared fact: a negative step makes Python's `range(0, N, step)`
empty, so the comprehension yields no pages and no error. -/
theorem paginate_neg_aux (text : List Char) (P : Int) (hP : P < 0) :
    paginate_text text P = some [] := by
  unfold paginate_text pyRange
  rw [if_neg (by omega)]
  have hlen : pyRangeLen 0 (text.length : Int) P = 0 := by
    unfold pyRangeLen
    rw [if_neg (by omega)]
    have h2 : (0 - (text.length : Int) - P - 1) / (-P) ≤ (-P - 1) / (-P) :=
      Int.ediv_le_ediv (by omega) (by omega)
    have h3 : (-P - 1) / (-P) = 0 := Int.ediv_eq_zero_of_lt (by omega) (by omega)
    omega
  rw [hlen]
  rfl

/-- C10: for every text and every negative page size, `paginate_text`
returns the empty page sequence without raising any error. -/
theorem paginate_negative_empty (text : List Char) (P : Int) (hP : P < 0) :
    paginate_text text P = some [] :=
  paginate_neg_aux text P hP

/-- Witness for C10 at text `"a"`, page size `-1`. -/
theorem paginate_negative_empty_witness :
    ((-1 : Int) < 0) ∧ paginate_text (("a").toList) (-1) = some [] :=
  ⟨by decide, paginate_negative_empty (("a").toList) (-1) (by decide)⟩

/-- Counterexample to C4 as stated: page size `-1` is non-positive, yet
`paginate_text` does not fail — it silently returns no pages. -/
theorem paginate_nonpositive_cex :
    ((-1 : Int) ≤ 0) ∧ paginate_text (("a").toList) (-1) ≠ none := by decide

/-- C4 (amended): the paginator's only failure mode is page size zero
(the `ValueError` raised by `range` for a zero step); a negative page
size yields the empty page sequence without error, and a positive page
size never fails. -/
theorem paginate_failure_modes (text : List Char) (P : Int) :
    (paginate_text text P = none ↔ P = 0) ∧
    (P < 0 → paginate_text text P = some []) := by
  refine ⟨⟨fun h => ?_, fun h => ?_⟩, paginate_neg_aux text P⟩
  · by_contra hne
    unfold paginate_text pyRange at h
    rw [if_neg hne] at h
    simp at h
  · subst h
    rfl

/-- Witness for C4's amended statement at concrete page sizes 0 and -2. -/
theorem paginate_failure_modes_witness :
    paginate_text (("a").toList) 0 = none ∧
    paginate_text (("a").toList) (-2) = some [] :=
  ⟨(paginate_failure_modes (("a").toList) 0).1.mpr rfl,
   (paginate_failure_modes (("a").toList) (-2)).2 (by decide)⟩

/-! ### C2: pagination correctness for positive page sizes -/

/-- For a positive page size the comprehension over `range` computes the
classical chunk decomposition `take`/`drop` at multiples of the page
size, with `ceil(N / P)` chunks. -/
theorem paginate_pos (text : List Char) (P : Int) (hP : 0 < P) :
    paginate_text text P =
      some ((List.range ((text.length + P.toNat - 1) / P.toNat)).map
        (fun k => (text.drop (k * P.toNat)).take P.toNat)) := by
  obtain ⟨q, rfl⟩ : ∃ q : Nat, P = (q : Int) :=
    ⟨P.toNat, (Int.toNat_of_nonneg hP.le).symm⟩
  have hq : 0 < q := by omega
  simp only [Int.toNat_natCast]
  unfold paginate_text pyRange pyRangeLen
  rw [if_neg (by omega), if_pos hP]
  have hlen : (((text.length : Int) - 0 + (q : Int) - 1) / (q : Int)).toNat
      = (text.length + q - 1) / q := by
    have hcast : (text.length : Int) - 0 + (q : Int) - 1
        = ((text.length + q - 1 : Nat) : Int) := by
      omega
    rw [hcast, ← Int.natCast_div, Int.toNat_natCast]
  rw [hlen, Option.map_some', List.map_map]
  refine congrArg some (List.map_congr_left (fun k hk => ?_))
  simp only [Function.comp_apply]
  have h1 : (0 : Int) + (k : Int) * (q : Int) = ((k * q : Nat) : Int) := by
    push_cast
    ring
  have h2 : ((k * q : Nat) : Int) + (q : Int) = ((k * q + q : Nat) : Int) := by
    push_cast
    ring
  rw [h1, h2, pySlice_eq _ _ _ (Int.natCast_nonneg _) (Int.natCast_nonneg _),
    Int.toNat_natCast, Int.toNat_natCast, List.drop_take]
  congr 1
  omega

/-- Concatenating the `ceil(N/q)` chunks of size `q` restores the list. -/
theorem chunks_join (q : Nat) (hq : 0 < q) :
    ∀ (n : Nat) (l : List Char), l.length = n →
      ((List.range ((l.length + q - 1) / q)).map
        (fun k => (l.drop (k * q)).take q)).flatten = l := by
  intro n
  induction n using Nat.strong_induction_on with
  | _ n ih =>
    intro l hl
    cases l with
    | nil =>
      have h0 : (([] : List Char).length + q - 1) / q = 0 :=
        Nat.div_eq_of_lt (by simp only [List.length_nil]; omega)
      rw [h0]
      rfl
    | cons c t =>
      have hceil : ((c :: t).length + q - 1) / q = ((c :: t).length - 1) / q + 1 := by
        have heq : (c :: t).length + q - 1 = ((c :: t).length - 1) + q := by
          simp only [List.length_cons]
          omega
        rw [heq, Nat.add_div_right _ hq]
      have hlen2 : ((c :: t).length - 1) / q = (((c :: t).drop q).length + q - 1) / q := by
        rw [List.length_drop]
        rcases le_or_lt (c :: t).length q with h | h
        · rw [Nat.div_eq_of_lt (by omega),
            Nat.div_eq_of_lt (by simp only [List.length_cons] at h ⊢; omega)]
        · congr 1
          omega
      have hrec := ih ((c :: t).length - q)
        (by simp only [List.length_cons] at hl ⊢; omega) ((c :: t).drop q)
        (by rw [List.length_drop])
      rw [hceil, List.range_succ_eq_map, List.map_cons, List.map_map, List.flatten_cons]
      have hfun : ((fun k => ((c :: t).drop (k * q)).take q) ∘ Nat.succ)
          = fun k => (((c :: t).drop q).drop (k * q)).take q := by
        funext k
        simp only [Function.comp_apply]
        rw [List.drop_drop]
        congr 2
        rw [Nat.succ_mul]
        omega
      rw [hfun, hlen2, hrec]
      simp only [Nat.zero_mul, List.drop_zero]
      exact List.take_append_drop q (c :: t)

/-- C2: for every text of length `N` and every page size `P > 0`,
`paginate_text` succeeds with exactly `ceil(N/P)` pages (none when the
text is empty), every page except possibly the last has exactly `P`
characters, the last page holds the remainder, and concatenating the
pages in order restores the text. -/
theorem paginate_text_correct (text : List Char) (P : Int) (hP : 0 < P) :
    ∃ pages, paginate_text text P = some pages ∧
      pages.length = (text.length + P.toNat - 1) / P.toNat ∧
      (text = [] → pages = []) ∧
      (∀ i (h : i < pages.length), i + 1 < pages.length →
        (pages.get ⟨i, h⟩).length = P.toNat) ∧
      (∀ h : pages ≠ [], (pages.getLast h).length =
        text.length - P.toNat * (pages.length - 1)) ∧
      pages.flatten = text := by
  obtain ⟨q, rfl⟩ : ∃ q : Nat, P = (q : Int) :=
    ⟨P.toNat, (Int.toNat_of_nonneg hP.le).symm⟩
  have hq : 0 < q := by exact_mod_cast hP
  simp only [Int.toNat_natCast]
  refine ⟨_, paginate_pos text (q : Int) hP, ?_⟩
  simp only [Int.toNat_natCast]
  have hD : ((List.range ((text.length + q - 1) / q)).map
      (fun k => (text.drop (k * q)).take q)).length = (text.length + q - 1) / q := by
    rw [List.length_map, List.length_range]
  have hDmul : ((text.length + q - 1) / q) * q ≤ text.length + q - 1 :=
    Nat.div_mul_le_self _ _
  have hget : ∀ i (h : i < ((List.range ((text.length + q - 1) / q)).map
      (fun k => (text.drop (k * q)).take q)).length),
      ((List.range ((text.length + q - 1) / q)).map
        (fun k => (text.drop (k * q)).take q)).get ⟨i, h⟩
        = (text.drop (i * q)).take q := by
    intro i h
    rw [List.get_map]
    simp [List.get_range]
  refine ⟨hD, ?_, ?_, ?_, ?_⟩
  · intro htext
    subst htext
    have h0 : (([] : List Char).length + q - 1) / q = 0 :=
      Nat.div_eq_of_lt (by simp only [List.length_nil]; omega)
    rw [h0]
    rfl
  · intro i h hi1
    rw [hget i h, List.length_take, List.length_drop]
    rw [hD] at hi1
    have hmul : (i + 1) * q ≤ ((text.length + q - 1) / q - 1) * q :=
      Nat.mul_le_mul_right q (by omega)
    have hsub : ((text.length + q - 1) / q - 1) * q
        = ((text.length + q - 1) / q) * q - 1 * q := Nat.sub_mul _ _ _
    have hiq : (i + 1) * q = i * q + q := by rw [Nat.succ_mul]
    omega
  · intro hne
    have hlenpos : 0 < (text.length + q - 1) / q := by
      by_contra hz
      apply hne
      have : ((List.range ((text.length + q - 1) / q)).map
        (fun k => (text.drop (k * q)).take q)).length = 0 := by omega
      exact List.eq_nil_of_length_eq_zero this
    rw [List.getLast_eq_get, hget _ _, List.length_take, List.length_drop, hD]
    have hdm := Nat.div_add_mod (text.length + q - 1) q
    have hmod : (text.length + q - 1) % q < q := Nat.mod_lt _ hq
    have hcomm : q * ((text.length + q - 1) / q) = ((text.length + q - 1) / q) * q :=
      Nat.mul_comm _ _
    have hsub : ((text.length + q - 1) / q - 1) * q
        = ((text.length + q - 1) / q) * q - 1 * q := Nat.sub_mul _ _ _
    have hmc : q * ((text.length + q - 1) / q - 1)
        = ((text.length + q - 1) / q - 1) * q := Nat.mul_comm _ _
    omega
  · exact chunks_join q hq text.length text rfl

/-- Witness for C2 at text `"abcde"`, page size 2. -/
theorem paginate_text_correct_witness :
    (0 : Int) < 2 ∧
    ∃ pages, paginate_text (("abcde").toList) 2 = some pages ∧
      pages.length = ((("abcde").toList).length + (2 : Int).toNat - 1) / (2 : Int).toNat ∧
      ((("abcde").toList) = [] → pages = []) ∧
      (∀ i (h : i < pages.length), i + 1 < pages.length →
        (pages.get ⟨i, h⟩).length = (2 : Int).toNat) ∧
      (∀ h : pages ≠ [], (pages.getLast h).length =
        (("abcde").toList).length - (2 : Int).toNat * (pages.length - 1)) ∧
      pages.flatten = ("abcde").toList :=
  ⟨by decide, paginate_text_correct (("abcde").toList) 2 (by decide)⟩


/-! ### C8: renderer coverage for pairwise-disjoint valid spans -/

/-- Sweep invariant: if every remaining annotation starts at or after the
cursor, spans are valid and chained left to right, then the emitted
fragments cover exactly `text[cursor:]`. -/
theorem sweep_join (text : List Char) :
    ∀ (l : List Ann ) (c : Int), 0 ≤ c → c ≤ (text.length : Int) →
      (∀ a ∈ l, c ≤ a.start_pos) →
      (∀ a ∈ l, a.start_pos < a.end_pos ∧ a.end_pos ≤ (text.length : Int)) →
      l.Pairwise (fun a b => a.end_pos ≤ b.start_pos) →
      ((sweep text c l).map Fragment.fragText).flatten = text.drop c.toNat := by
  intro l
  induction l with
  | nil =>
    intro c hc0 hcN _ _ _
    by_cases h : c < (text.length : Int)
    · simp only [sweep, if_pos h, List.map_cons, List.map_nil, List.flatten_cons,
        List.flatten_nil, List.append_nil, Fragment.fragText]
      rw [pySlice_eq _ _ _ hc0 (Int.natCast_nonneg _), Int.toNat_natCast,
        List.take_length]
    · simp only [sweep, if_neg h, List.map_nil, List.flatten_nil]
      have hcl : c.toNat = text.length := by omega
      rw [hcl, List.drop_length]
  | cons a rest ih =>
    intro c hc0 hcN hstart hval hpair
    obtain ⟨hae, haN⟩ := hval a (List.mem_cons_self a rest)
    have has : c ≤ a.start_pos := hstart a (List.mem_cons_self a rest)
    have hhead : ∀ b ∈ rest, a.end_pos ≤ b.start_pos := (List.pairwise_cons.mp hpair).1
    have hIH := ih a.end_pos (by omega) haN hhead
      (fun b hb => hval b (List.mem_cons_of_mem a hb)) (List.pairwise_cons.mp hpair).2
    have hglue1 : (text.take a.end_pos.toNat).drop a.start_pos.toNat ++
        text.drop a.end_pos.toNat = text.drop a.start_pos.toNat :=
      slice_glue text _ _ (by omega)
    by_cases hgap : a.start_pos > c
    · simp only [sweep, if_pos hgap, List.map_append, List.map_cons, List.map_nil,
        List.flatten_append, List.flatten_cons, List.flatten_nil, List.append_nil,
        Fragment.fragText]
      rw [hIH, pySlice_eq _ _ _ hc0 (by omega), pySlice_eq _ _ _ (by omega) (by omega),
        hglue1]
      exact slice_glue text _ _ (by omega)
    · simp only [sweep, if_neg hgap, List.nil_append, List.map_cons,
        List.flatten_cons, Fragment.fragText]
      have hsc : a.start_pos = c := le_antisymm (not_lt.mp hgap) has
      rw [hIH, pySlice_eq _ _ _ (by omega) (by omega), hsc]
      exact slice_glue text _ _ (by omega)

/-- C8: for every text and every annotation list whose spans are valid
(`0 ≤ start < end ≤ N`) and pairwise disjoint, concatenating the text of
every fragment emitted by `get_annotated_text`, in order, restores the
original text exactly. -/
theorem renderer_coverage (text : List Char) (annotations : List Ann )
    (hval : ∀ a ∈ annotations, 0 ≤ a.start_pos ∧ a.start_pos < a.end_pos ∧
      a.end_pos ≤ (text.length : Int))
    (hdisj : annotations.Pairwise
      (fun a b => a.end_pos ≤ b.start_pos ∨ b.end_pos ≤ a.start_pos)) :
    ((get_annotated_text text annotations).map Fragment.fragText).flatten = text := by
  unfold get_annotated_text
  have hperm := List.perm_insertionSort annLe annotations
  have hsorted := List.sorted_insertionSort annLe annotations
  have hval2 : ∀ a ∈ annotations.insertionSort annLe, 0 ≤ a.start_pos ∧
      a.start_pos < a.end_pos ∧ a.end_pos ≤ (text.length : Int) :=
    fun a ha => hval a (hperm.mem_iff.mp ha)
  have hdisj2 : (annotations.insertionSort annLe).Pairwise
      (fun a b => a.end_pos ≤ b.start_pos ∨ b.end_pos ≤ a.start_pos) :=
    hdisj.perm hperm.symm (fun h => h.symm)
  have hchain : (annotations.insertionSort annLe).Pairwise
      (fun a b => a.end_pos ≤ b.start_pos) := by
    refine (hsorted.and hdisj2).imp_of_mem ?_
    intro a b ha hb hab
    obtain ⟨hle, hor⟩ := hab
    have hle' : a.start_pos ≤ b.start_pos := hle
    obtain ⟨_, hblt, _⟩ := hval2 b hb
    rcases hor with h | h
    · exact h
    · omega
  have h := sweep_join text (annotations.insertionSort annLe) 0 le_rfl
    (Int.natCast_nonneg _) (fun a ha => (hval2 a ha).1)
    (fun a ha => (hval2 a ha).2) hchain
  simpa using h

/-- Witness for C8 at text `"abcd"` with the disjoint, unsorted spans
`[2,3)` and `[0,1)`. -/
theorem renderer_coverage_witness :
    (∀ a ∈ ([⟨2, 3, ("c").toList, ("c").toList⟩,
        ⟨0, 1, ("a").toList, ("a").toList⟩] : List Ann ),
      0 ≤ a.start_pos ∧ a.start_pos < a.end_pos ∧
        a.end_pos ≤ ((("abcd").toList).length : Int)) ∧
    ([⟨2, 3, ("c").toList, ("c").toList⟩,
        ⟨0, 1, ("a").toList, ("a").toList⟩] : List Ann ).Pairwise
      (fun a b => a.end_pos ≤ b.start_pos ∨ b.end_pos ≤ a.start_pos) ∧
    ((get_annotated_text (("abcd").toList)
        [⟨2, 3, ("c").toList, ("c").toList⟩,
         ⟨0, 1, ("a").toList, ("a").toList⟩]).map Fragment.fragText).flatten =
      ("abcd").toList :=
  ⟨by decide, by decide,
    renderer_coverage (("abcd").toList)
      [⟨2, 3, ("c").toList, ("c").toList⟩, ⟨0, 1, ("a").toList, ("a").toList⟩]
      (by decide) (by decide)⟩

/-! ### Character and digit facts -/

theorem uint32_le_iff (a b : UInt32) : a ≤ b ↔ a.toNat ≤ b.toNat := by
  rw [UInt32.le_def, BitVec.le_def]
  rfl

theorem char_isDigit_of (c : Char) (h1 : 48 ≤ c.toNat) (h2 : c.toNat ≤ 57) :
    c.isDigit = true := by
  simp only [Char.isDigit]
  rw [Bool.and_eq_true, decide_eq_true_iff, decide_eq_true_iff]
  constructor
  · show (48 : UInt32) ≤ c.val
    rw [uint32_le_iff]
    exact h1
  · show c.val ≤ (57 : UInt32)
    rw [uint32_le_iff]
    exact h2

theorem char_toNat_ofNat (n : Nat) (h : n.isValidChar) : (Char.ofNat n).toNat = n := by
  simp [Char.ofNat, h, Char.ofNatAux, Char.toNat, UInt32.toNat, BitVec.toNat_ofNatLt]

theorem char_valid_ranges (c : Char) :
    c.toNat < 55296 ∨ (57344 ≤ c.toNat ∧ c.toNat < 1114112) := by
  rcases c.valid with h | ⟨h1, h2⟩
  · left; exact h
  · right; exact ⟨h1, h2⟩

theorem natDigits_spec (n : Nat) :
    (∃ d t, natDigits n = d :: t) ∧ ∀ c ∈ natDigits n, 48 ≤ c.toNat ∧ c.toNat ≤ 57 := by
  induction n using Nat.strong_induction_on with
  | _ n ih =>
    rw [natDigits]
    by_cases h : n < 10
    · rw [if_pos h]
      refine ⟨⟨_, _, rfl⟩, ?_⟩
      intro c hc
      rw [List.mem_singleton] at hc
      subst hc
      rw [char_toNat_ofNat _ (Or.inl (by omega))]
      omega
    · rw [if_neg h]
      obtain ⟨⟨d, t, hdt⟩, hdig⟩ := ih (n / 10) (Nat.div_lt_self (by omega) (by omega))
      constructor
      · rw [hdt]
        exact ⟨d, t ++ [Char.ofNat (48 + n % 10)], rfl⟩
      · intro c hc
        rw [List.mem_append] at hc
        rcases hc with hc | hc
        · exact hdig c hc
        · rw [List.mem_singleton] at hc
          subst hc
          rw [char_toNat_ofNat _ (Or.inl (by omega))]
          omega

theorem natDigits_foldl (n : Nat) :
    ∀ a : Nat, (natDigits n).foldl (fun acc c => acc * 10 + (c.toNat - 48)) a
      = a * 10 ^ (natDigits n).length + n := by
  induction n using Nat.strong_induction_on with
  | _ n ih =>
    intro a
    rw [natDigits]
    by_cases h : n < 10
    · rw [if_pos h]
      simp only [List.foldl_cons, List.foldl_nil, List.length_cons, List.length_nil]
      rw [char_toNat_ofNat _ (Or.inl (by omega))]
      have h10 : 10 ^ (0 + 1) = 10 := by norm_num
      rw [h10]
      omega
    · rw [if_neg h]
      rw [List.foldl_append, List.length_append]
      rw [ih (n / 10) (Nat.div_lt_self (by omega) (by omega)) a]
      simp only [List.foldl_cons, List.foldl_nil, List.length_cons, List.length_nil]
      rw [char_toNat_ofNat _ (Or.inl (by omega))]
      have hpow : 10 ^ ((natDigits (n / 10)).length + (0 + 1))
          = 10 ^ (natDigits (n / 10)).length * 10 := by
        rw [pow_succ]
      rw [hpow]
      have hring : (a * 10 ^ (natDigits (n / 10)).length + n / 10) * 10 + (48 + n % 10 - 48)
          = a * (10 ^ (natDigits (n / 10)).length * 10) + (n / 10 * 10 + n % 10) := by
        have : 48 + n % 10 - 48 = n % 10 := by omega
        rw [this]
        ring
      rw [hring]
      have : n / 10 * 10 + n % 10 = n := by omega
      rw [this]

theorem takeWhile_all (p : Char → Bool) (l : List Char) :
    ∀ rest : List Char, (∀ c ∈ l, p c = true) →
      (∀ c, rest.head? = some c → p c = false) →
      (l ++ rest).takeWhile p = l ∧ (l ++ rest).dropWhile p = rest := by
  induction l with
  | nil =>
    intro rest _ hrest
    cases rest with
    | nil => exact ⟨rfl, rfl⟩
    | cons c r =>
      have hc := hrest c rfl
      simp only [List.nil_append, List.takeWhile_cons, List.dropWhile_cons, hc]
      exact ⟨rfl, rfl⟩
  | cons c l ih =>
    intro rest hl hrest
    have hc : p c = true := hl c (List.mem_cons_self c l)
    obtain ⟨h1, h2⟩ := ih rest (fun d hd => hl d (List.mem_cons_of_mem c hd)) hrest
    simp only [List.cons_append, List.takeWhile_cons, List.dropWhile_cons, hc, if_pos]
    exact ⟨by rw [h1], by rw [h2]⟩

theorem parseDigits_natDigits (n : Nat) (rest : List Char)
    (hrest : ∀ c, rest.head? = some c → c.isDigit = false) :
    parseDigits (natDigits n ++ rest) = some (n, rest) := by
  obtain ⟨⟨d, t, hdt⟩, hdig⟩ := natDigits_spec n
  have hall : ∀ c ∈ natDigits n, c.isDigit = true := by
    intro c hc
    obtain ⟨h1, h2⟩ := hdig c hc
    exact char_isDigit_of c h1 h2
  obtain ⟨htake, hdrop⟩ := takeWhile_all Char.isDigit (natDigits n) rest hall hrest
  unfold parseDigits
  rw [htake, hdrop]
  rw [if_neg (by rw [hdt]; exact List.cons_ne_nil d t)]
  have hfold := natDigits_foldl n 0
  rw [hfold]
  norm_num

/-! ### Hex and string escape facts -/

theorem hexDigitVal_hexDigitChar : ∀ k, k < 16 → hexDigitVal (hexDigitChar k) = some k := by
  decide

theorem hex4Val_hex4 (n : Nat) (h : n < 65536) :
    hex4Val (hexDigitChar (n / 4096 % 16)) (hexDigitChar (n / 256 % 16))
      (hexDigitChar (n / 16 % 16)) (hexDigitChar (n % 16)) = some n := by
  unfold hex4Val
  rw [hexDigitVal_hexDigitChar _ (Nat.mod_lt _ (by omega)),
    hexDigitVal_hexDigitChar _ (Nat.mod_lt _ (by omega)),
    hexDigitVal_hexDigitChar _ (Nat.mod_lt _ (by omega)),
    hexDigitVal_hexDigitChar _ (Nat.mod_lt _ (by omega))]
  show some _ = some n
  congr 1
  omega

theorem readU_hex (v : Nat) (r : List Char) (hv : v < 65536)
    (hns : ¬ (55296 ≤ v ∧ v < 57344)) :
    readU (hex4 v ++ r) = some (Char.ofNat v, 4) := by
  simp only [hex4, List.cons_append, List.nil_append]
  rw [readU.eq_def]
  dsimp only
  rw [hex4Val_hex4 v hv]
  dsimp only
  rw [if_neg (by omega), if_neg (by omega)]

theorem readU_pair (h l : Nat) (r : List Char) (hh : h < 65536) (hl : l < 65536)
    (hhs : 55296 ≤ h ∧ h < 56320) (hls : 56320 ≤ l ∧ l < 57344) :
    readU (hex4 h ++ (bs :: 'u' :: (hex4 l ++ r)))
      = some (Char.ofNat (65536 + (h - 55296) * 1024 + (l - 56320)), 10) := by
  simp only [hex4, List.cons_append, List.nil_append]
  rw [readU.eq_def]
  dsimp only
  rw [hex4Val_hex4 h hh]
  dsimp only
  rw [if_pos hhs]
  rw [if_pos (And.intro rfl rfl), hex4Val_hex4 l hl]
  dsimp only
  rw [if_pos hls]

theorem psb_quote (r : List Char) : parseStringBody (qc :: r) = some ([], r) := by
  rw [parseStringBody.eq_def]
  dsimp only
  rw [if_pos rfl]

theorem psb_escape (e : Char) (ch : Char) (r : List Char) (he : ¬ e = 'u')
    (hch : unescapeChar e = some ch) :
    parseStringBody (bs :: e :: r) = (parseStringBody r).map (fun p => (ch :: p.1, p.2)) := by
  rw [parseStringBody.eq_def]
  dsimp only
  rw [if_neg (by decide), if_pos rfl, if_neg he, hch]

theorem psb_raw (c : Char) (r : List Char) (h1 : ¬ c = qc) (h2 : ¬ c = bs)
    (h3 : 32 ≤ c.toNat) :
    parseStringBody (c :: r) = (parseStringBody r).map (fun p => (c :: p.1, p.2)) := by
  rw [parseStringBody.eq_def]
  dsimp only
  rw [if_neg h1, if_neg h2, if_neg (by omega)]

theorem psb_hex (v : Nat) (r : List Char) (hv : v < 65536)
    (hns : ¬ (55296 ≤ v ∧ v < 57344)) :
    parseStringBody (bs :: 'u' :: (hex4 v ++ r))
      = (parseStringBody r).map (fun p => (Char.ofNat v :: p.1, p.2)) := by
  rw [parseStringBody.eq_def]
  dsimp only
  rw [if_neg (by decide), if_pos rfl, if_pos rfl, readU_hex v r hv hns]
  dsimp only
  have hdrop : (hex4 v ++ r).drop 4 = r := by
    simp [hex4]
  rw [hdrop]

theorem psb_pair (h l : Nat) (r : List Char) (hh : h < 65536) (hl : l < 65536)
    (hhs : 55296 ≤ h ∧ h < 56320) (hls : 56320 ≤ l ∧ l < 57344) :
    parseStringBody (bs :: 'u' :: (hex4 h ++ (bs :: 'u' :: (hex4 l ++ r))))
      = (parseStringBody r).map
          (fun p => (Char.ofNat (65536 + (h - 55296) * 1024 + (l - 56320)) :: p.1, p.2)) := by
  rw [parseStringBody.eq_def]
  dsimp only
  rw [if_neg (by decide), if_pos rfl, if_pos rfl, readU_pair h l r hh hl hhs hls]
  dsimp only
  have hdrop : (hex4 h ++ (bs :: 'u' :: (hex4 l ++ r))).drop 10 = r := by
    simp [hex4]
  rw [hdrop]

theorem psb_encodeChar (c : Char) (Z : List Char) :
    parseStringBody (encodeChar c ++ Z)
      = (parseStringBody Z).map (fun p => (c :: p.1, p.2)) := by
  by_cases h1 : c = qc
  · have he : encodeChar c = [bs, qc] := by unfold encodeChar; rw [if_pos h1]
    rw [he]
    show parseStringBody (bs :: qc :: Z) = _
    rw [psb_escape qc qc Z (by decide) (by decide), h1]
  · by_cases h2 : c = bs
    · have he : encodeChar c = [bs, bs] := by unfold encodeChar; rw [if_neg h1, if_pos h2]
      rw [he]
      show parseStringBody (bs :: bs :: Z) = _
      rw [psb_escape bs bs Z (by decide) (by decide), h2]
    · by_cases h3 : c.toNat = 8
      · have he : encodeChar c = [bs, 'b'] := by
          unfold encodeChar; rw [if_neg h1, if_neg h2, if_pos h3]
        rw [he]
        show parseStringBody (bs :: 'b' :: Z) = _
        rw [psb_escape 'b' (Char.ofNat 8) Z (by decide) (by decide), ← h3,
          Char.ofNat_toNat]
      · by_cases h4 : c.toNat = 12
        · have he : encodeChar c = [bs, 'f'] := by
            unfold encodeChar; rw [if_neg h1, if_neg h2, if_neg h3, if_pos h4]
          rw [he]
          show parseStringBody (bs :: 'f' :: Z) = _
          rw [psb_escape 'f' (Char.ofNat 12) Z (by decide) (by decide), ← h4,
            Char.ofNat_toNat]
        · by_cases h5 : c.toNat = 10
          · have he : encodeChar c = [bs, 'n'] := by
              unfold encodeChar; rw [if_neg h1, if_neg h2, if_neg h3, if_neg h4, if_pos h5]
            rw [he]
            show parseStringBody (bs :: 'n' :: Z) = _
            have hnl : unescapeChar 'n' = some (Char.ofNat 10) := by decide
            rw [psb_escape 'n' (Char.ofNat 10) Z (by decide) hnl, ← h5, Char.ofNat_toNat]
          · by_cases h6 : c.toNat = 13
            · have he : encodeChar c = [bs, 'r'] := by
                unfold encodeChar
                rw [if_neg h1, if_neg h2, if_neg h3, if_neg h4, if_neg h5, if_pos h6]
              rw [he]
              show parseStringBody (bs :: 'r' :: Z) = _
              rw [psb_escape 'r' (Char.ofNat 13) Z (by decide) (by decide), ← h6,
                Char.ofNat_toNat]
            · by_cases h7 : c.toNat = 9
              · have he : encodeChar c = [bs, 't'] := by
                  unfold encodeChar
                  rw [if_neg h1, if_neg h2, if_neg h3, if_neg h4, if_neg h5, if_neg h6,
                    if_pos h7]
                rw [he]
                show parseStringBody (bs :: 't' :: Z) = _
                rw [psb_escape 't' (Char.ofNat 9) Z (by decide) (by decide), ← h7,
                  Char.ofNat_toNat]
              · by_cases h8 : c.toNat < 32
                · have he : encodeChar c = bs :: 'u' :: hex4 c.toNat := by
                    unfold encodeChar
                    rw [if_neg h1, if_neg h2, if_neg h3, if_neg h4, if_neg h5, if_neg h6,
                      if_neg h7, if_pos h8]
                  rw [he]
                  show parseStringBody (bs :: 'u' :: (hex4 c.toNat ++ Z)) = _
                  rw [psb_hex c.toNat Z (by omega) (by omega), Char.ofNat_toNat]
                · by_cases h9 : c.toNat < 127
                  · have he : encodeChar c = [c] := by
                      unfold encodeChar
                      rw [if_neg h1, if_neg h2, if_neg h3, if_neg h4, if_neg h5,
                        if_neg h6, if_neg h7, if_neg h8, if_pos h9]
                    rw [he]
                    show parseStringBody (c :: Z) = _
                    rw [psb_raw c Z h1 h2 (by omega)]
                  · by_cases h10 : c.toNat < 65536
                    · have he : encodeChar c = bs :: 'u' :: hex4 c.toNat := by
                        unfold encodeChar
                        rw [if_neg h1, if_neg h2, if_neg h3, if_neg h4, if_neg h5,
                          if_neg h6, if_neg h7, if_neg h8, if_neg h9, if_pos h10]
                      rw [he]
                      show parseStringBody (bs :: 'u' :: (hex4 c.toNat ++ Z)) = _
                      have hns : ¬ (55296 ≤ c.toNat ∧ c.toNat < 57344) := by
                        rcases char_valid_ranges c with h | ⟨ha, hb⟩ <;> omega
                      rw [psb_hex c.toNat Z (by omega) hns, Char.ofNat_toNat]
                    · have he : encodeChar c =
                          bs :: 'u' :: hex4 (55296 + (c.toNat - 65536) / 1024) ++
                          bs :: 'u' :: hex4 (56320 + (c.toNat - 65536) % 1024) := by
                        unfold encodeChar
                        rw [if_neg h1, if_neg h2, if_neg h3, if_neg h4, if_neg h5,
                          if_neg h6, if_neg h7, if_neg h8, if_neg h9, if_neg h10]
                      rw [he]
                      have hlim : c.toNat < 1114112 := by
                        rcases char_valid_ranges c with h | ⟨ha, hb⟩ <;> omega
                      have hsh : (bs :: 'u' :: hex4 (55296 + (c.toNat - 65536) / 1024) ++
                          bs :: 'u' :: hex4 (56320 + (c.toNat - 65536) % 1024)) ++ Z
                          = bs :: 'u' :: (hex4 (55296 + (c.toNat - 65536) / 1024) ++
                            (bs :: 'u' :: (hex4 (56320 + (c.toNat - 65536) % 1024) ++ Z))) := by
                        simp [List.append_assoc]
                      rw [hsh]
                      rw [psb_pair (55296 + (c.toNat - 65536) / 1024)
                        (56320 + (c.toNat - 65536) % 1024) Z
                        (by omega) (by omega) (by omega) (by omega)]
                      have harith : 65536 +
                          (55296 + (c.toNat - 65536) / 1024 - 55296) * 1024 +
                          (56320 + (c.toNat - 65536) % 1024 - 56320) = c.toNat := by
                        omega
                      rw [harith, Char.ofNat_toNat]

theorem psb_encStr : ∀ s rest : List Char,
    parseStringBody (encStr s ++ qc :: rest) = some (s, rest) := by
  intro s
  induction s with
  | nil =>
    intro rest
    show parseStringBody (([] : List (List Char)).flatten ++ qc :: rest) = some ([], rest)
    rw [List.flatten_nil, List.nil_append]
    exact psb_quote rest
  | cons c s ih =>
    intro rest
    have henc : encStr (c :: s) = encodeChar c ++ encStr s := by
      simp [encStr]
    rw [henc, List.append_assoc, psb_encodeChar, ih rest, Option.map_some']

/-! ### Whitespace and head-character facts -/

theorem char_toNat_congr (c d : Char) (h : c = d) : c.toNat = d.toNat :=
  congrArg Char.toNat h

theorem isWsChar_false_of (c : Char) (h32 : ¬ c.toNat = 32) (h9 : ¬ c.toNat = 9)
    (h10 : ¬ c.toNat = 10) (h13 : ¬ c.toNat = 13) : isWsChar c = false := by
  unfold isWsChar
  have e1 : (c == ' ') = false := by
    rw [beq_eq_false_iff_ne]
    intro he
    exact h32 (char_toNat_congr c ' ' he)
  have e2 : (c == Char.ofNat 9) = false := by
    rw [beq_eq_false_iff_ne]
    intro he
    exact h9 (char_toNat_congr c (Char.ofNat 9) he)
  have e3 : (c == nl) = false := by
    rw [beq_eq_false_iff_ne]
    intro he
    exact h10 (char_toNat_congr c nl he)
  have e4 : (c == Char.ofNat 13) = false := by
    rw [beq_eq_false_iff_ne]
    intro he
    exact h13 (char_toNat_congr c (Char.ofNat 13) he)
  rw [e1, e2, e3, e4]
  rfl

theorem char_ne_of_toNat (c d : Char) (h : ¬ c.toNat = d.toNat) : ¬ c = d :=
  fun he => h (char_toNat_congr c d he)

theorem skipWs_cons_nonws (c : Char) (r : List Char) (h : isWsChar c = false) :
    skipWs (c :: r) = c :: r := by
  unfold skipWs
  rw [List.dropWhile_cons, h]
  rfl

theorem skipWs_cons_ws (c : Char) (r : List Char) (h : isWsChar c = true) :
    skipWs (c :: r) = skipWs r := by
  unfold skipWs
  rw [List.dropWhile_cons, h]
  rfl

theorem skipWs_spaces (k : Nat) : ∀ r, skipWs (List.replicate k ' ' ++ r) = skipWs r := by
  induction k with
  | zero => intro r; rfl
  | succ k ih =>
    intro r
    rw [List.replicate_succ, List.cons_append, skipWs_cons_ws ' ' _ (by decide), ih r]

theorem skipWs_indentN (k : Nat) (r : List Char) :
    skipWs (indentN k ++ r) = skipWs r := by
  unfold indentN
  exact skipWs_spaces (4 * k) r

theorem skipWs_nl (r : List Char) : skipWs (nl :: r) = skipWs r :=
  skipWs_cons_ws nl r (by decide)

/-- The first character of any dumped value: it exists, is not JSON
whitespace, and is not a closing bracket or brace. -/
theorem dump_head (level : Nat) (j : Json) :
    ∃ d t, dumpVal level j = d :: t ∧ isWsChar d = false ∧ ¬ d = ']' ∧ ¬ d = rb := by
  cases j with
  | str s =>
    refine ⟨qc, encStr s ++ [qc], by rw [dumpVal]; simp, by decide, by decide, by decide⟩
  | int n =>
    cases n with
    | ofNat m =>
      obtain ⟨⟨d, t, hdt⟩, hdig⟩ := natDigits_spec m
      have hd : 48 ≤ d.toNat ∧ d.toNat ≤ 57 := hdig d (by rw [hdt]; exact List.mem_cons_self d t)
      refine ⟨d, t, ?_, ?_, ?_, ?_⟩
      · rw [dumpVal]
        exact hdt
      · exact isWsChar_false_of d (by omega) (by omega) (by omega) (by omega)
      · apply char_ne_of_toNat
        have : (']' : Char).toNat = 93 := by decide
        omega
      · apply char_ne_of_toNat
        have : rb.toNat = 125 := by decide
        omega
    | negSucc m =>
      refine ⟨'-', natDigits (m + 1), by rw [dumpVal]; rfl, by decide, by decide, by decide⟩
  | arr xs =>
    cases xs with
    | nil => exact ⟨'[', [']'], by rw [dumpVal], by decide, by decide, by decide⟩
    | cons x xs =>
      exact ⟨'[', itemsChunk level x xs, by rw [dumpVal], by decide, by decide, by decide⟩
  | obj kvs =>
    cases kvs with
    | nil => exact ⟨lb, [rb], by rw [dumpVal], by decide, by decide, by decide⟩
    | cons kv kvs =>
      exact ⟨lb, membersChunk level kv.1 kv.2 kvs, by rw [dumpVal], by decide,
        by decide, by decide⟩

theorem skipWs_all_ws (w : List Char) (hw : ∀ c ∈ w, isWsChar c = true) :
    ∀ s, skipWs (w ++ s) = skipWs s := by
  induction w with
  | nil => intro s; rfl
  | cons c w ih =>
    intro s
    rw [List.cons_append, skipWs_cons_ws c _ (hw c (List.mem_cons_self c w))]
    exact ih (fun d hd => hw d (List.mem_cons_of_mem c hd)) s

theorem parseVal_ws (fuel : Nat) (w s : List Char) (hw : ∀ c ∈ w, isWsChar c = true) :
    parseVal fuel (w ++ s) = parseVal fuel s := by
  cases fuel with
  | zero => rfl
  | succ fuel =>
    rw [parseVal.eq_def, parseVal.eq_def]
    dsimp only
    rw [skipWs_all_ws w hw s]

/-! ### parseVal on dumped leaf values -/

theorem pv_str (fuel level : Nat) (s rest : List Char) :
    parseVal (fuel + 1) (dumpVal level (Json.str s) ++ rest) = some (Json.str s, rest) := by
  have hd : dumpVal level (Json.str s) = qc :: (encStr s ++ [qc]) := by
    rw [dumpVal]
    simp
  rw [hd]
  simp only [List.cons_append, List.append_assoc, List.singleton_append,
    List.nil_append]
  rw [parseVal.eq_def]
  dsimp only
  rw [skipWs_cons_nonws qc _ (by decide)]
  dsimp only
  rw [if_pos rfl, psb_encStr s rest, Option.map_some']

theorem pv_int (fuel level : Nat) (n : Int) (rest : List Char)
    (hrest : ∀ c, rest.head? = some c → c.isDigit = false) :
    parseVal (fuel + 1) (dumpVal level (Json.int n) ++ rest) = some (Json.int n, rest) := by
  have h34 : qc.toNat = 34 := by decide
  have h91 : ('[' : Char).toNat = 91 := by decide
  have h123 : lb.toNat = 123 := by decide
  have h45 : ('-' : Char).toNat = 45 := by decide
  cases n with
  | ofNat m =>
    have hd : dumpVal level (Json.int (Int.ofNat m)) = natDigits m := by
      rw [dumpVal]
      rfl
    obtain ⟨⟨d, t, hdt⟩, hdig⟩ := natDigits_spec m
    obtain ⟨hd48, hd57⟩ := hdig d (by rw [hdt]; exact List.mem_cons_self d t)
    rw [hd, hdt, List.cons_append, parseVal.eq_def]
    dsimp only
    rw [skipWs_cons_nonws d _ (isWsChar_false_of d (by omega) (by omega) (by omega)
      (by omega))]
    dsimp only
    rw [if_neg (char_ne_of_toNat d qc (by omega)),
      if_neg (char_ne_of_toNat d '[' (by omega)),
      if_neg (char_ne_of_toNat d lb (by omega)),
      if_neg (char_ne_of_toNat d '-' (by omega)),
      if_pos (char_isDigit_of d hd48 hd57)]
    rw [show d :: (t ++ rest) = (d :: t) ++ rest from rfl, ← hdt,
      parseDigits_natDigits m rest hrest, Option.map_some']
    rfl
  | negSucc m =>
    have hd : dumpVal level (Json.int (Int.negSucc m)) = '-' :: natDigits (m + 1) := by
      rw [dumpVal]
      rfl
    rw [hd, List.cons_append, parseVal.eq_def]
    dsimp only
    rw [skipWs_cons_nonws '-' _ (by decide)]
    dsimp only
    rw [if_neg (by decide), if_neg (by decide), if_neg (by decide), if_pos rfl,
      parseDigits_natDigits (m + 1) rest hrest, Option.map_some']
    have : (-((m : Int) + 1)) = Int.negSucc m := by
      rw [Int.negSucc_eq]
    norm_num
    rw [Int.negSucc_eq]
    norm_num

theorem pv_arr_nil (fuel level : Nat) (rest : List Char) :
    parseVal (fuel + 1) (dumpVal level (Json.arr []) ++ rest) = some (Json.arr [], rest) := by
  have hd : dumpVal level (Json.arr []) = ['[', ']'] := by rw [dumpVal]
  rw [hd]
  rw [show (['[', ']'] : List Char) ++ rest = '[' :: ']' :: rest from rfl, parseVal.eq_def]
  dsimp only
  rw [skipWs_cons_nonws '[' _ (by decide)]
  dsimp only
  rw [if_neg (by decide), if_pos rfl]
  rw [skipWs_cons_nonws ']' _ (by decide)]
  rw [show headEq (']' :: rest) ']' = true from rfl, if_pos rfl]
  rfl

theorem pv_obj_nil (fuel level : Nat) (rest : List Char) :
    parseVal (fuel + 1) (dumpVal level (Json.obj []) ++ rest) = some (Json.obj [], rest) := by
  have hd : dumpVal level (Json.obj []) = [lb, rb] := by rw [dumpVal]
  rw [hd]
  rw [show ([lb, rb] : List Char) ++ rest = lb :: rb :: rest from rfl, parseVal.eq_def]
  dsimp only
  rw [skipWs_cons_nonws lb _ (by decide)]
  dsimp only
  rw [if_neg (by decide), if_neg (by decide), if_pos rfl]
  rw [skipWs_cons_nonws rb _ (by decide)]
  rw [show headEq (rb :: rest) rb = true from rfl, if_pos rfl]
  rfl

/-! ### Shapes of non-empty container chunks -/

theorem itemsChunk_shape (level : Nat) (x : Json) (xs : List Json) :
    ∃ T, itemsChunk level x xs
      = nl :: (indentN (level + 1) ++ (dumpVal (level + 1) x ++ T)) := by
  cases xs with
  | nil =>
    refine ⟨nl :: (indentN level ++ [']']), ?_⟩
    rw [itemsChunk]
    simp [List.append_assoc]
  | cons y ys =>
    refine ⟨',' :: itemsChunk level y ys, ?_⟩
    rw [itemsChunk]
    simp [List.append_assoc]

theorem membersChunk_head (level : Nat) (k : List Char) (v : Json)
    (kvs : List (List Char × Json)) :
    ∃ T, membersChunk level k v kvs = nl :: (indentN (level + 1) ++ (qc :: T)) := by
  cases kvs with
  | nil =>
    refine ⟨encStr k ++ (qc :: ':' :: ' ' :: (dumpVal (level + 1) v ++
      (nl :: (indentN level ++ [rb])))), ?_⟩
    rw [membersChunk]
    simp [keyColon, List.append_assoc]
  | cons kv kvs =>
    refine ⟨encStr k ++ (qc :: ':' :: ' ' :: (dumpVal (level + 1) v ++
      (',' :: membersChunk level kv.1 kv.2 kvs))), ?_⟩
    rw [membersChunk]
    simp [keyColon, List.append_assoc]

/-- Printer-parser inverse: with enough fuel, parsing a dumped value
consumes exactly its text. -/
theorem parse_dump_round : ∀ fuel : Nat,
    (∀ (j : Json) (level : Nat) (rest : List Char),
      (dumpVal level j).length < fuel →
      (∀ c, rest.head? = some c → c.isDigit = false) →
      parseVal fuel (dumpVal level j ++ rest) = some (j, rest)) ∧
    (∀ (x : Json) (xs : List Json) (level : Nat) (rest : List Char),
      (itemsChunk level x xs).length < fuel →
      parseItems fuel (itemsChunk level x xs ++ rest) = some (x :: xs, rest)) ∧
    (∀ (k : List Char) (v : Json) (kvs : List (List Char × Json)) (level : Nat)
        (rest : List Char),
      (membersChunk level k v kvs).length < fuel →
      parseMembers fuel (membersChunk level k v kvs ++ rest) = some ((k, v) :: kvs, rest)) := by
  intro fuel
  induction fuel with
  | zero =>
    exact ⟨fun j level rest h => absurd h (by omega),
      fun x xs level rest h => absurd h (by omega),
      fun k v kvs level rest h => absurd h (by omega)⟩
  | succ fuel ih =>
    obtain ⟨ih1, ih2, ih3⟩ := ih
    refine ⟨?_, ?_, ?_⟩
    · intro j level rest hlen hrest
      cases j with
      | str s => exact pv_str fuel level s rest
      | int n => exact pv_int fuel level n rest hrest
      | arr xs =>
        cases xs with
        | nil => exact pv_arr_nil fuel level rest
        | cons x xs =>
          have hd : dumpVal level (Json.arr (x :: xs)) = '[' :: itemsChunk level x xs := by
            rw [dumpVal]
          rw [hd] at hlen ⊢
          rw [List.cons_append, parseVal.eq_def]
          dsimp only
          rw [skipWs_cons_nonws '[' _ (by decide)]
          dsimp only
          rw [if_neg (by decide), if_pos rfl]
          obtain ⟨T, hT⟩ := itemsChunk_shape level x xs
          obtain ⟨dd, dt, hdd, hdws, hdne, _⟩ := dump_head (level + 1) x
          have hskip : skipWs (itemsChunk level x xs ++ rest)
              = dd :: (dt ++ (T ++ rest)) := by
            rw [hT, List.cons_append, skipWs_nl, List.append_assoc, skipWs_indentN,
              List.append_assoc, hdd, List.cons_append, skipWs_cons_nonws dd _ hdws]
          have hne : ¬ headEq (skipWs (itemsChunk level x xs ++ rest)) ']' = true := by
            rw [hskip]
            show ¬ (dd == ']') = true
            rw [beq_eq_false_iff_ne.mpr hdne]
            exact Bool.false_ne_true
          rw [if_neg hne]
          rw [ih2 x xs level rest (by simp only [List.length_cons] at hlen; omega),
            Option.map_some']
      | obj kvs =>
        cases kvs with
        | nil => exact pv_obj_nil fuel level rest
        | cons kv kvs =>
          have hd : dumpVal level (Json.obj (kv :: kvs))
              = lb :: membersChunk level kv.1 kv.2 kvs := by
            rw [dumpVal]
          rw [hd] at hlen ⊢
          rw [List.cons_append, parseVal.eq_def]
          dsimp only
          rw [skipWs_cons_nonws lb _ (by decide)]
          dsimp only
          rw [if_neg (by decide), if_neg (by decide), if_pos rfl]
          obtain ⟨T, hT⟩ := membersChunk_head level kv.1 kv.2 kvs
          have hskip : skipWs (membersChunk level kv.1 kv.2 kvs ++ rest)
              = qc :: (T ++ rest) := by
            rw [hT, List.cons_append, skipWs_nl, List.append_assoc, skipWs_indentN,
              List.cons_append, skipWs_cons_nonws qc _ (by decide)]
          have hne : ¬ headEq (skipWs (membersChunk level kv.1 kv.2 kvs ++ rest)) rb = true := by
            rw [hskip]
            show ¬ (qc == rb) = true
            decide
          rw [if_neg hne]
          rw [ih3 kv.1 kv.2 kvs level rest (by simp only [List.length_cons] at hlen; omega),
            Option.map_some']
    · intro x xs level rest hlen
      cases xs with
      | nil =>
        rw [itemsChunk] at hlen ⊢
        simp only [List.cons_append, List.append_assoc, List.nil_append,
          List.singleton_append] at hlen ⊢
        rw [parseItems.eq_def]
        dsimp only
        rw [show nl :: (indentN (level + 1) ++ (dumpVal (level + 1) x ++
            (nl :: (indentN level ++ (']' :: rest)))))
          = (nl :: indentN (level + 1)) ++ (dumpVal (level + 1) x ++
            (nl :: (indentN level ++ (']' :: rest)))) from rfl]
        rw [parseVal_ws fuel (nl :: indentN (level + 1)) _
          (by
            intro c hc
            rcases List.mem_cons.mp hc with h | h
            · subst h; decide
            · rw [List.eq_of_mem_replicate h]; decide)]
        rw [ih1 x (level + 1) _
          (by
            simp only [List.length_cons, List.length_append, List.length_replicate,
              indentN] at hlen ⊢
            omega)
          (by intro c hc; injection hc with hc2; rw [← hc2]; decide)]
        dsimp only
        rw [skipWs_nl, skipWs_indentN, skipWs_cons_nonws ']' _ (by decide)]
        dsimp only
        rw [if_neg (by decide), if_pos rfl]
      | cons y ys =>
        rw [itemsChunk] at hlen ⊢
        simp only [List.cons_append, List.append_assoc, List.nil_append,
          List.singleton_append] at hlen ⊢
        rw [parseItems.eq_def]
        dsimp only
        rw [show nl :: (indentN (level + 1) ++ (dumpVal (level + 1) x ++
            (',' :: (itemsChunk level y ys ++ rest))))
          = (nl :: indentN (level + 1)) ++ (dumpVal (level + 1) x ++
            (',' :: (itemsChunk level y ys ++ rest))) from rfl]
        rw [parseVal_ws fuel (nl :: indentN (level + 1)) _
          (by
            intro c hc
            rcases List.mem_cons.mp hc with h | h
            · subst h; decide
            · rw [List.eq_of_mem_replicate h]; decide)]
        rw [ih1 x (level + 1) _
          (by
            simp only [List.length_cons, List.length_append, List.length_replicate,
              indentN] at hlen ⊢
            omega)
          (by intro c hc; injection hc with hc2; rw [← hc2]; decide)]
        dsimp only
        rw [skipWs_cons_nonws ',' _ (by decide)]
        dsimp only
        rw [if_pos rfl]
        rw [ih2 y ys level rest
          (by
            simp only [List.length_cons, List.length_append, List.length_replicate,
              indentN] at hlen ⊢
            omega),
          Option.map_some']
    · intro k v kvs level rest hlen
      cases kvs with
      | nil =>
        rw [membersChunk] at hlen ⊢
        simp only [keyColon, List.cons_append, List.append_assoc, List.nil_append,
          List.singleton_append] at hlen ⊢
        rw [parseMembers.eq_def]
        dsimp only
        rw [skipWs_nl, skipWs_indentN, skipWs_cons_nonws qc _ (by decide)]
        dsimp only
        rw [if_pos rfl, psb_encStr]
        dsimp only
        rw [skipWs_cons_nonws ':' _ (by decide)]
        dsimp only
        rw [if_pos rfl]
        rw [show (' ' :: (dumpVal (level + 1) v ++ (nl :: (indentN level ++ (rb :: rest)))))
          = ([' '] : List Char) ++ (dumpVal (level + 1) v ++
            (nl :: (indentN level ++ (rb :: rest)))) from rfl]
        rw [parseVal_ws fuel [' '] _ (by intro c hc; rw [List.mem_singleton] at hc; subst hc; decide)]
        rw [ih1 v (level + 1) _
          (by
            simp only [List.length_cons, List.length_append, List.length_replicate,
              indentN, encStr] at hlen ⊢
            omega)
          (by intro c hc; injection hc with hc2; rw [← hc2]; decide)]
        dsimp only
        rw [skipWs_nl, skipWs_indentN, skipWs_cons_nonws rb _ (by decide)]
        dsimp only
        rw [if_neg (by decide), if_pos rfl]
      | cons kv2 kvs2 =>
        rw [membersChunk] at hlen ⊢
        simp only [keyColon, List.cons_append, List.append_assoc, List.nil_append,
          List.singleton_append] at hlen ⊢
        rw [parseMembers.eq_def]
        dsimp only
        rw [skipWs_nl, skipWs_indentN, skipWs_cons_nonws qc _ (by decide)]
        dsimp only
        rw [if_pos rfl, psb_encStr]
        dsimp only
        rw [skipWs_cons_nonws ':' _ (by decide)]
        dsimp only
        rw [if_pos rfl]
        rw [show (' ' :: (dumpVal (level + 1) v ++
            (',' :: (membersChunk level kv2.1 kv2.2 kvs2 ++ rest))))
          = ([' '] : List Char) ++ (dumpVal (level + 1) v ++
            (',' :: (membersChunk level kv2.1 kv2.2 kvs2 ++ rest))) from rfl]
        rw [parseVal_ws fuel [' '] _ (by intro c hc; rw [List.mem_singleton] at hc; subst hc; decide)]
        rw [ih1 v (level + 1) _
          (by
            simp only [List.length_cons, List.length_append, List.length_replicate,
              indentN, encStr] at hlen ⊢
            omega)
          (by intro c hc; injection hc with hc2; rw [← hc2]; decide)]
        dsimp only
        rw [skipWs_cons_nonws ',' _ (by decide)]
        dsimp only
        rw [if_pos rfl]
        rw [ih3 kv2.1 kv2.2 kvs2 level rest
          (by
            simp only [List.length_cons, List.length_append, List.length_replicate,
              indentN, encStr] at hlen ⊢
            omega),
          Option.map_some']

/-- Parsing the exact output of the dumper recovers the dumped value. -/
theorem json_loads_dump (j : Json) : json_loads (dumpVal 0 j) = some j := by
  have h := (parse_dump_round ((dumpVal 0 j).length + 1)).1 j 0 []
    (by omega) (by intro c hc; cases hc)
  rw [List.append_nil] at h
  unfold json_loads
  rw [h]
  rfl

/-- C6: serialization is round-trip stable — parsing the string produced
by `save_annotations` succeeds, and re-serializing the parsed value with
the same stable key/array ordering yields the identical string. -/
theorem save_round_trip_stable (text : List Char) (annotations : List Ann ) :
    ∃ j, json_loads (save_annotations text annotations) = some j ∧
      json_dumps j = save_annotations text annotations :=
  ⟨docJson text annotations, json_loads_dump (docJson text annotations), rfl⟩

/-- C5: for any text and any annotation set satisfying the data-model
invariant `text_fragment = text[start_pos:end_pos]`, parsing the output
of `save_annotations` yields an object whose `"text"` field is the input
text and whose `"annotations"` array has the same length and order as
the input set, each entry carrying exactly the four fields
`start_pos, end_pos, label, text_fragment` with `text_fragment` equal to
the slice `text[start_pos:end_pos]`. -/
theorem save_parse_fields (text : List Char) (anns : List Ann )
    (hfrag : ∀ a ∈ anns, a.text_fragment = pySlice text a.start_pos a.end_pos) :
    ∃ arr : List Json,
      json_loads (save_annotations text anns)
        = some (Json.obj [(("text").toList, Json.str text),
            (("annotations").toList, Json.arr arr)]) ∧
      arr.length = anns.length ∧
      ∀ i (hi : i < anns.length) (hj : i < arr.length),
        arr.get ⟨i, hj⟩ = Json.obj
          [(("start_pos").toList, Json.int (anns.get ⟨i, hi⟩).start_pos),
           (("end_pos").toList, Json.int (anns.get ⟨i, hi⟩).end_pos),
           (("label").toList, Json.str (anns.get ⟨i, hi⟩).label),
           (("text_fragment").toList,
             Json.str (pySlice text (anns.get ⟨i, hi⟩).start_pos
               (anns.get ⟨i, hi⟩).end_pos))] := by
  refine ⟨anns.map annJson, json_loads_dump (docJson text anns), by rw [List.length_map], ?_⟩
  intro i hi hj
  rw [List.get_map]
  show annJson (anns.get ⟨i, hi⟩) = _
  unfold annJson
  rw [hfrag (anns.get ⟨i, hi⟩) (anns.get_mem i hi)]

/-- Witness for C5 at text `"ab"` with one annotation `[0,1)` labelled
`"L"` whose cached fragment is the correct slice. -/
theorem save_parse_fields_witness :
    (∀ a ∈ ([⟨0, 1, ("L").toList, ("a").toList⟩] : List Ann ),
      a.text_fragment = pySlice (("ab").toList) a.start_pos a.end_pos) ∧
    (∃ arr : List Json,
      json_loads (save_annotations (("ab").toList)
          [⟨0, 1, ("L").toList, ("a").toList⟩])
        = some (Json.obj [(("text").toList, Json.str (("ab").toList)),
            (("annotations").toList, Json.arr arr)]) ∧
      arr.length = ([⟨0, 1, ("L").toList, ("a").toList⟩] : List Ann ).length ∧
      ∀ i (hi : i < ([⟨0, 1, ("L").toList, ("a").toList⟩] : List Ann ).length)
          (hj : i < arr.length),
        arr.get ⟨i, hj⟩ = Json.obj
          [(("start_pos").toList,
             Json.int ((([⟨0, 1, ("L").toList, ("a").toList⟩] : List Ann ).get
               ⟨i, hi⟩).start_pos)),
           (("end_pos").toList,
             Json.int ((([⟨0, 1, ("L").toList, ("a").toList⟩] : List Ann ).get
               ⟨i, hi⟩).end_pos)),
           (("label").toList,
             Json.str ((([⟨0, 1, ("L").toList, ("a").toList⟩] : List Ann ).get
               ⟨i, hi⟩).label)),
           (("text_fragment").toList,
             Json.str (pySlice (("ab").toList)
               ((([⟨0, 1, ("L").toList, ("a").toList⟩] : List Ann ).get ⟨i, hi⟩).start_pos)
               ((([⟨0, 1, ("L").toList, ("a").toList⟩] : List Ann ).get
                 ⟨i, hi⟩).end_pos)))]) :=
  ⟨by decide,
   save_parse_fields (("ab").toList) [⟨0, 1, ("L").toList, ("a").toList⟩] (by decide)⟩
